import Mathlib

/-!
Shallow embedding of the snippet-matching / highlighting pipeline of the
chat-with-docs backend (`backend/highlight_pdf.py` and the highlight section
of the `/ask` handler in `backend/server.py`).

Python strings are modelled as `List Char`; the PDF library is modelled by
its observable behavior (a page is the function taking a search string to
the list of located regions, a failing `search_for` being the empty list);
save success/failure and filesystem facts are environment parameters.
-/

namespace ChatWithDocs

/-- Python strings, modelled as lists of characters. -/
abbrev Str := List Char

/-- The whitespace predicate used by Python `str.split()` / `str.strip()`
(ASCII fragment, which covers every character this development touches). -/
def pyIsSpace (c : Char) : Bool :=
  c == ' ' || c == '\t' || c == '\n' || c == '\r'

/-- Python `s.strip()`: remove leading and trailing whitespace. -/
def pyStrip (s : Str) : Str :=
  ((s.dropWhile pyIsSpace).reverse.dropWhile pyIsSpace).reverse

/-- Helper of `pySplit`: `cur` is the non-whitespace run read so far. -/
def pySplitAcc : Str → Str → List Str
  | [], cur => if cur = [] then [] else [cur]
  | c :: rest, cur =>
    if pyIsSpace c then
      if cur = [] then pySplitAcc rest [] else cur :: pySplitAcc rest []
    else pySplitAcc rest (cur ++ [c])

/-- Python `s.split()`: maximal runs of non-whitespace characters, in order;
whitespace-only input yields `[]`. -/
def pySplit (t : Str) : List Str := pySplitAcc t []

/-- Python `" ".join(words)`. -/
def joinWords : List Str → Str
  | [] => []
  | [w] => w
  | w :: x :: ws => w ++ ' ' :: joinWords (x :: ws)

/-- `" ".join(text.split())` — the whitespace collapsing performed at the top
of `_generate_snippets` (highlight_pdf.py line 14). -/
def normalizeWs (t : Str) : Str := joinWords (pySplit t)

/-- The `while` loop of `_generate_snippets` (highlight_pdf.py lines 15-22),
made total with explicit fuel.  One unit of fuel is one loop iteration; the
definition below always supplies enough fuel for every terminating run of
the Python loop, and `none` marks fuel exhaustion (a diverging Python run). -/
def snippetLoop (t : Str) (maxSnippets window step : Nat) :
    Nat → List Str → Nat → Option (List Str)
  | 0, snippets, start =>
    if snippets.length < maxSnippets ∧ start < t.length then none else some snippets
  | fuel + 1, snippets, start =>
    if snippets.length < maxSnippets ∧ start < t.length then
      let snippet := (t.drop start).take window
      let snippets' := if pyStrip snippet ≠ [] then snippets ++ [snippet] else snippets
      snippetLoop t maxSnippets window step fuel snippets' (start + step)
    else some snippets

/-- `_generate_snippets` (highlight_pdf.py lines 7-28).  The fuel
`t.length + max_snippets` dominates the iteration count of every
terminating run of the Python loop: with `step ≥ 1` the loop runs at most
`len(text)` iterations, and with `step = 0` it terminates only by filling
the snippet cap, which takes at most `max_snippets` iterations. -/
def generate_snippets (text : Str) (max_snippets window step : Nat) : List Str :=
  if text = [] then []
  else
    let t := normalizeWs text
    match snippetLoop t max_snippets window step (t.length + max_snippets) [] 0 with
    | none => []
    | some snippets =>
      if snippets ≠ [] ∧ snippets.length < max_snippets then
        let first := t.take 200
        if first ∈ snippets then snippets else snippets ++ [first]
      else snippets

/-- A PDF page, modelled by its observable search behavior: `p ss` is the
list of regions `page.search_for(ss)` locates (regions are opaque ids).  A
`search_for` call that raises is caught by the code (highlight_pdf.py lines
59-62) and behaves as the empty list, so a total function is faithful. -/
abbrev Page := Str → List Nat

/-- The `for page in doc` loop of highlight_pdf.py lines 58-76 for one
candidate: the first page (by index) on which the search locates at least
one region, together with the located regions of that page. -/
def searchHitAux (ss : Str) : List Page → Nat → Option (Nat × List Nat)
  | [], _ => none
  | p :: rest, i =>
    if p ss ≠ [] then some (i, p ss) else searchHitAux ss rest (i + 1)

/-- First page with a hit, searching from page 0. -/
def searchHit (pages : List Page) (ss : Str) : Option (Nat × List Nat) :=
  searchHitAux ss pages 0

/-- The `for snippet in candidates` loop of highlight_pdf.py lines 50-80.
Returns the matched (stripped) snippets and the annotation events
`(page index, region)` attempted, in order.  Mirrors the source: empty
stripped candidates are skipped (skipping also skips the cap check, as
`continue` does); on the first page with a hit at most the first 6 regions
are annotated, the stripped snippet is recorded once, and no further pages
are searched; after each processed candidate the loop stops as soon as 6
snippets have been matched in total. -/
def processCandidates (pages : List Page) :
    List Str → List Str → List (Nat × Nat) → List Str × List (Nat × Nat)
  | [], matched, annots => (matched, annots)
  | c :: rest, matched, annots =>
    if pyStrip c = [] then processCandidates pages rest matched annots
    else
      match searchHit pages (pyStrip c) with
      | some hit =>
        if 6 ≤ (matched ++ [pyStrip c]).length then
          (matched ++ [pyStrip c], annots ++ (hit.2.take 6).map (fun r => (hit.1, r)))
        else
          processCandidates pages rest (matched ++ [pyStrip c])
            (annots ++ (hit.2.take 6).map (fun r => (hit.1, r)))
      | none =>
        if 6 ≤ matched.length then (matched, annots)
        else processCandidates pages rest matched annots

/-- Which save strategy succeeded: the primary `doc.save(output_path)` or
the compacting retry `doc.save(output_path, garbage=4, deflate=True)`. -/
inductive SaveMode
  | primary
  | compact
deriving DecidableEq, Repr

/-- Environment of one `highlight_pdf` call: the result of `fitz.open`
(`none` = the open raised) and whether each save strategy would succeed. -/
structure PdfEnv where
  openDoc : Option (List Page)
  primarySaveOk : Bool
  retrySaveOk : Bool

/-- Observable outcome of one `highlight_pdf` call: the returned list, plus
the side effects (whether `fitz.open` was attempted, the annotation events,
how many save calls were attempted, and which save strategy persisted the
output file, if any). -/
structure HighlightOutcome where
  matched : List Str
  openAttempted : Bool
  annots : List (Nat × Nat)
  saveAttempts : Nat
  savedAt : Option SaveMode
deriving DecidableEq, Repr

/-- `highlight_pdf` (highlight_pdf.py lines 30-97).  Candidates come from
`_generate_snippets(text, max_snippets=8, window=400, step=240)`; the save
runs only when at least one snippet matched, retrying once with the
compacting strategy, and a second failure is swallowed.  The `finally:
doc.close()` has no observable effect in this model. -/
def highlight_pdf (env : PdfEnv) (text_to_highlight : Str) : HighlightOutcome :=
  if text_to_highlight = [] then ⟨[], false, [], 0, none⟩
  else
    match env.openDoc with
    | none => ⟨[], true, [], 0, none⟩
    | some doc =>
      let candidates := generate_snippets text_to_highlight 8 400 240
      let res := processCandidates doc candidates [] []
      if res.1 ≠ [] then
        if env.primarySaveOk then ⟨res.1, true, res.2, 1, some SaveMode.primary⟩
        else if env.retrySaveOk then ⟨res.1, true, res.2, 2, some SaveMode.compact⟩
        else ⟨res.1, true, res.2, 2, none⟩
      else ⟨res.1, true, res.2, 0, none⟩

/-- A retrieved fragment (LangChain document): its text content and the
result of the `metadata.get("source") or ... or None` chain in server.py
line 136 (`none` when every key is missing or falsy). -/
structure Fragment where
  content : Str
  src : Option Str

/-- Environment of the `/ask` highlight section: the uploaded file paths
(`_state["files"]`), `os.path.exists`, the PDF behavior behind each path,
`os.path.abspath` and `urllib.parse.quote_plus`. -/
structure ServerEnv where
  files : List Str
  pathExists : Str → Bool
  pdf : Str → PdfEnv
  abspath : Str → Str
  quote_plus : Str → Str

/-- `os.path.basename` (POSIX): the part after the last slash. -/
def basename (p : Str) : Str :=
  (p.reverse.takeWhile (fun c => c != '/')).reverse

/-- `os.path.isabs` (POSIX): the path starts with a slash. -/
def isAbs : Str → Bool
  | [] => false
  | c :: _ => c == '/'

/-- `grouped_by_source.setdefault(src, []).append(content)` on an
insertion-ordered dict, modelled as an association list (server.py line 143). -/
def groupInsert : List (Str × List Str) → Str → Str → List (Str × List Str)
  | [], k, v => [(k, [v])]
  | (k', vs) :: rest, k, v =>
    if k' = k then (k', vs ++ [v]) :: rest else (k', vs) :: groupInsert rest k v

/-- The grouping loop of server.py lines 132-143: fragments whose source
metadata is missing or empty (`if src:`) are not grouped. -/
def groupBySource (frags : List Fragment) : List (Str × List Str) :=
  frags.foldl
    (fun g f =>
      match f.src with
      | none => g
      | some s => if s = [] then g else groupInsert g s f.content)
    []

/-- Resolution of a grouped source path (server.py lines 147-151): an
absolute path is kept; otherwise the first uploaded file with the same base
name is used, falling back to the path itself. -/
def resolveCandidate (files : List Str) (srcPath : Str) : Str :=
  if isAbs srcPath then srcPath
  else
    match files.filter (fun p => basename p = basename srcPath) with
    | [] => srcPath
    | m :: _ => m

/-- The constant part appended to the source path: `f".highlighted.{idx}.pdf"`. -/
def outSuffix (idx : Nat) : Str :=
  ".highlighted.".toList ++ Nat.toDigits 10 idx ++ ".pdf".toList

/-- The per-fragment output path `candidate + f".highlighted.{idx_doc}.pdf"`
(server.py line 158). -/
def outPath (candidate : Str) (idx : Nat) : Str :=
  candidate ++ outSuffix idx

/-- The `for idx_doc, content in enumerate(contents[:8])` loop of server.py
lines 157-164, recorded as the list of (output path, highlight outcome)
per fragment invocation, starting at index `i`. -/
def fileInvocationsAux (pdfE : PdfEnv) (candidate : Str) :
    Nat → List Str → List (Str × HighlightOutcome)
  | _, [] => []
  | i, c :: rest =>
    (outPath candidate i, highlight_pdf pdfE c) :: fileInvocationsAux pdfE candidate (i + 1) rest

/-- All highlight invocations performed for one resolved file. -/
def fileInvocations (env : ServerEnv) (candidate : Str) (contents : List Str) :
    List (Str × HighlightOutcome) :=
  fileInvocationsAux (env.pdf candidate) candidate 0 (contents.take 8)

/-- `all_matched_snippets` after the fragment loop (server.py lines 156-162):
each invocation's matched list is appended when non-empty. -/
def allMatched (env : ServerEnv) (candidate : Str) (contents : List Str) : List Str :=
  (fileInvocations env candidate contents).foldl
    (fun acc inv => if inv.2.matched ≠ [] then acc ++ inv.2.matched else acc) []

/-- The dedup loop of server.py lines 167-170: keep the first occurrence of
each snippet, preserving order. -/
def dedupeKeepOrder (l : List Str) : List Str :=
  l.foldl (fun acc s => if s ∈ acc then acc else acc ++ [s]) []

/-- One entry of the `highlighted_pdfs` response list (server.py lines
173-178). -/
structure Artifact where
  name : Str
  chunks : List Str
  download_path : Str
  download_url : Str
deriving DecidableEq, Repr

/-- Construction of the artifact for one resolved file (server.py lines
166-178): emitted only when some snippet matched; `download_path` is built
from the `out_path` variable as left by the fragment loop, i.e. the output
path of the *last* fragment invocation. -/
def fileArtifact (env : ServerEnv) (candidate : Str) (contents : List Str) :
    Option Artifact :=
  if allMatched env candidate contents ≠ [] then
    some ⟨basename candidate, dedupeKeepOrder (allMatched env candidate contents),
      env.abspath (outPath candidate ((contents.take 8).length - 1)),
      "/download?path=".toList ++
        env.quote_plus (env.abspath (outPath candidate ((contents.take 8).length - 1)))⟩
  else none

/-- Output paths at which an annotated PDF was actually persisted during the
fragment loop for one file (those invocations whose save succeeded). -/
def persistedPaths (env : ServerEnv) (candidate : Str) (contents : List Str) : List Str :=
  ((fileInvocations env candidate contents).filter
    (fun inv => inv.2.savedAt ≠ none)).map (fun inv => inv.1)

/-- The whole highlight section of `/ask` (server.py lines 131-178): group
fragments by source, resolve each source, skip files that do not exist, and
emit one artifact per file with at least one matched snippet. -/
def serverHighlights (env : ServerEnv) (frags : List Fragment) : List Artifact :=
  (groupBySource frags).foldl
    (fun acc kv =>
      let candidate := resolveCandidate env.files kv.1
      if env.pathExists candidate then
        match fileArtifact env candidate kv.2 with
        | some a => acc ++ [a]
        | none => acc
      else acc)
    []

/-- A page on which every search locates region 0. -/
def pageAll : Page := fun _ => [0]

/-- A one-page document that matches everything; saves succeed. -/
def pdfEnvAll : PdfEnv := ⟨some [pageAll], true, true⟩

/-- Server environment: every path exists, every PDF matches everything,
`abspath` and `quote_plus` are the identity. -/
def serverEnvAll : ServerEnv := ⟨[], fun _ => true, fun _ => pdfEnvAll, fun p => p, fun p => p⟩

/-- A concrete absolute source path. -/
def srcRpdf : Str := "/u/r.pdf".toList

/-- Seven fragments of one source file with distinct one-character contents. -/
def fragsSeven : List Fragment :=
  [⟨['A'], some srcRpdf⟩, ⟨['B'], some srcRpdf⟩, ⟨['C'], some srcRpdf⟩,
   ⟨['D'], some srcRpdf⟩, ⟨['E'], some srcRpdf⟩, ⟨['F'], some srcRpdf⟩,
   ⟨['G'], some srcRpdf⟩]

/-- A page that locates a region only for the snippet "A". -/
def pageOnlyA : Page := fun s => if s = ['A'] then [0] else []

/-- A one-page document matching only "A"; saves succeed. -/
def pdfEnvOnlyA : PdfEnv := ⟨some [pageOnlyA], true, true⟩

/-- Server environment built over `pdfEnvOnlyA`. -/
def serverEnvOnlyA : ServerEnv := ⟨[], fun _ => true, fun _ => pdfEnvOnlyA, fun p => p, fun p => p⟩

/-- Two fragments of one source file: the first matches, the second does not. -/
def fragsAZ : List Fragment := [⟨['A'], some srcRpdf⟩, ⟨['Z'], some srcRpdf⟩]

/-- The artifact emitted for `srcRpdf` given the single fragment "A". -/
def artifactA : Artifact :=
  ⟨"r.pdf".toList, [['A']], outPath srcRpdf 0,
    "/download?path=".toList ++ outPath srcRpdf 0⟩

/-- The artifact emitted for `srcRpdf` given the fragments "A", "Z" in the
`serverEnvOnlyA` environment: its download path is the output path of the
second (matchless) invocation. -/
def artifactAZ : Artifact :=
  ⟨"r.pdf".toList, [['A']], outPath srcRpdf 1,
    "/download?path=".toList ++ outPath srcRpdf 1⟩

/-! ## Theorems -/

/-- A non-whitespace head survives `pyStrip`. -/
theorem pyStrip_cons_ne_nil {c : Char} {r : Str} (h : pyIsSpace c = false) :
    pyStrip (c :: r) ≠ [] := by
  unfold pyStrip
  rw [List.dropWhile_cons]
  simp only [h, Bool.false_eq_true, if_false]
  intro hnil
  rw [List.reverse_eq_nil_iff, List.dropWhile_eq_nil_iff] at hnil
  have hc := hnil c (by simp)
  rw [h] at hc
  exact Bool.false_ne_true hc

/-- Every word produced by `pySplitAcc` starts with a non-whitespace
character, provided the current run does. -/
theorem pySplitAcc_mem_head :
    ∀ (t : Str) (cur : Str),
      (cur = [] ∨ ∃ c cs, cur = c :: cs ∧ pyIsSpace c = false) →
      ∀ w ∈ pySplitAcc t cur, ∃ c cs, w = c :: cs ∧ pyIsSpace c = false := by
  intro t
  induction t with
  | nil =>
    intro cur hinv w hw
    rw [pySplitAcc] at hw
    split at hw
    · simp at hw
    next hcur =>
      obtain rfl := List.mem_singleton.mp hw
      rcases hinv with rfl | h
      · exact absurd rfl hcur
      · exact h
  | cons c rest ih =>
    intro cur hinv w hw
    rw [pySplitAcc] at hw
    split at hw
    · split at hw
      · exact ih [] (Or.inl rfl) w hw
      next hcur =>
        rcases List.mem_cons.mp hw with rfl | hw
        · rcases hinv with rfl | h
          · exact absurd rfl hcur
          · exact h
        · exact ih [] (Or.inl rfl) w hw
    next hsp =>
      refine ih (cur ++ [c]) ?_ w hw
      rcases hinv with rfl | ⟨c0, cs0, rfl, hc0⟩
      · exact Or.inr ⟨c, [], by simp, by simpa using hsp⟩
      · exact Or.inr ⟨c0, cs0 ++ [c], by simp, hc0⟩

/-- Every word produced by `pySplit` starts with a non-whitespace character. -/
theorem pySplit_mem_head :
    ∀ t : Str, ∀ w ∈ pySplit t, ∃ c cs, w = c :: cs ∧ pyIsSpace c = false :=
  fun t => pySplitAcc_mem_head t [] (Or.inl rfl)

/-- A non-empty whitespace-normalized text starts with a non-whitespace
character. -/
theorem normalizeWs_head {t : Str} {c : Char} {cs : Str}
    (h : normalizeWs t = c :: cs) : pyIsSpace c = false := by
  unfold normalizeWs at h
  rcases hsp : pySplit t with _ | ⟨w, ws⟩
  · rw [hsp] at h
    simp [joinWords] at h
  · have hw : w ∈ pySplit t := by rw [hsp]; exact List.mem_cons_self w ws
    obtain ⟨c0, cs0, rfl, hc0⟩ := pySplit_mem_head t w hw
    rw [hsp] at h
    cases ws with
    | nil =>
      rw [joinWords] at h
      obtain ⟨rfl, -⟩ := List.cons.injEq .. ▸ h
      exact hc0
    | cons x ws' =>
      rw [joinWords] at h
      rw [List.cons_append] at h
      obtain ⟨rfl, -⟩ := List.cons.injEq .. ▸ h
      exact hc0

/-- Any property that holds of every window of `t` holds of every snippet
the loop produces, given it holds of the snippets accumulated so far. -/
theorem snippetLoop_mem (t : Str) (maxS w step : Nat) (P : Str → Prop)
    (hwin : ∀ start, pyStrip ((t.drop start).take w) ≠ [] → P ((t.drop start).take w)) :
    ∀ (fuel : Nat) (snippets : List Str) (start : Nat) (out : List Str),
      (∀ s ∈ snippets, P s) →
      snippetLoop t maxS w step fuel snippets start = some out →
      ∀ s ∈ out, P s := by
  intro fuel
  induction fuel with
  | zero =>
    intro snippets start out hsn hrun
    rw [snippetLoop] at hrun
    split at hrun
    · exact absurd hrun (by simp)
    · obtain rfl := Option.some.inj hrun
      exact hsn
  | succ n ih =>
    intro snippets start out hsn hrun
    rw [snippetLoop] at hrun
    split at hrun
    · refine ih _ _ _ ?_ hrun
      intro s hs
      by_cases hstrip : pyStrip ((t.drop start).take w) ≠ []
      · rw [if_pos hstrip] at hs
        rcases List.mem_append.mp hs with hs | hs
        · exact hsn s hs
        · obtain rfl := List.mem_singleton.mp hs
          exact hwin start hstrip
      · rw [if_neg hstrip] at hs
        exact hsn s hs
    · obtain rfl := Option.some.inj hrun
      exact hsn

/-- The loop never grows the snippet list beyond `maxS`. -/
theorem snippetLoop_length_le (t : Str) (maxS w step : Nat) :
    ∀ (fuel : Nat) (snippets : List Str) (start : Nat) (out : List Str),
      snippets.length ≤ maxS →
      snippetLoop t maxS w step fuel snippets start = some out →
      out.length ≤ maxS := by
  intro fuel
  induction fuel with
  | zero =>
    intro snippets start out hlen hrun
    rw [snippetLoop] at hrun
    split at hrun
    · exact absurd hrun (by simp)
    · obtain rfl := Option.some.inj hrun
      exact hlen
  | succ n ih =>
    intro snippets start out hlen hrun
    rw [snippetLoop] at hrun
    split at hrun
    case isTrue hcond =>
      refine ih _ _ _ ?_ hrun
      by_cases hstrip : pyStrip ((t.drop start).take w) ≠ []
      · rw [if_pos hstrip, List.length_append, List.length_singleton]
        omega
      · rw [if_neg hstrip]
        exact hlen
    case isFalse =>
      obtain rfl := Option.some.inj hrun
      exact hlen

/-- With a positive step the loop terminates within `t.length - start`
iterations. -/
theorem snippetLoop_isSome_of_step_pos (t : Str) (maxS w step : Nat)
    (hstep : 1 ≤ step) :
    ∀ (fuel : Nat) (snippets : List Str) (start : Nat),
      t.length - start ≤ fuel →
      (snippetLoop t maxS w step fuel snippets start).isSome := by
  intro fuel
  induction fuel with
  | zero =>
    intro snippets start hf
    rw [snippetLoop]
    split
    case isTrue hcond => omega
    case isFalse => simp
  | succ n ih =>
    intro snippets start hf
    rw [snippetLoop]
    split
    case isTrue hcond => exact ih _ _ (by omega)
    case isFalse => simp

/-- On the empty snippet list the loop over an empty text returns it
unchanged (the guard `start < len(text)` fails immediately). -/
theorem snippetLoop_nil_text (maxS w step : Nat) :
    ∀ (fuel start : Nat) (out : List Str),
      snippetLoop [] maxS w step fuel [] start = some out → out = [] := by
  intro fuel start out hrun
  cases fuel with
  | zero =>
    rw [snippetLoop] at hrun
    split at hrun
    · exact absurd hrun (by simp)
    · exact (Option.some.inj hrun).symm
  | succ n =>
    rw [snippetLoop] at hrun
    split at hrun
    case isTrue hcond => exact absurd hcond.2 (by simp)
    case isFalse => exact (Option.some.inj hrun).symm

/-- C10: `_generate_snippets` terminates for every text and parameter choice
with `step ≥ 1`: the loop (run with the fuel `generate_snippets` supplies)
completes, because the window start advances by `step ≥ 1` each iteration
until it reaches the text length or the cap is hit.  `step ≥ 1` is a
necessary precondition for this universal guarantee: with `step = 0` (and
window 0) the loop state never changes, so no amount of fuel completes the
run — the Python loop diverges. -/
theorem C10_snippet_loop_terminates :
    (∀ (text : Str) (maxS w step : Nat), 1 ≤ step →
      (snippetLoop (normalizeWs text) maxS w step
        ((normalizeWs text).length + maxS) [] 0).isSome) ∧
    (∀ fuel : Nat, snippetLoop ['a'] 6 0 0 fuel [] 0 = none) := by
  constructor
  · intro text maxS w step hstep
    exact snippetLoop_isSome_of_step_pos (normalizeWs text) maxS w step hstep _ _ _ (by omega)
  · intro fuel
    induction fuel with
    | zero =>
      rw [snippetLoop]
      split
      · rfl
      case isFalse hcond => exact absurd (by constructor <;> simp) hcond
    | succ n ih =>
      rw [snippetLoop]
      split
      case isTrue =>
        simpa [pyStrip, List.dropWhile] using ih
      case isFalse hcond => exact absurd (by constructor <;> simp) hcond

/-- Witness for C10 at concrete inputs. -/
theorem C10_snippet_loop_terminates_witness :
    (snippetLoop (normalizeWs ['a', 'b']) 6 300 200
      ((normalizeWs ['a', 'b']).length + 6) [] 0).isSome ∧
    snippetLoop ['a'] 6 0 0 3 [] 0 = none :=
  ⟨C10_snippet_loop_terminates.1 ['a', 'b'] 6 300 200 (by omega),
   C10_snippet_loop_terminates.2 3⟩

/-- A positive-length take from a list with a non-whitespace head survives
`pyStrip`. -/
theorem pyStrip_take_pos {c : Char} (cs : Str) {n : Nat} (hn : 0 < n)
    (hc : pyIsSpace c = false) : pyStrip ((c :: cs).take n) ≠ [] := by
  cases n with
  | zero => omega
  | succ m =>
    rw [List.take_succ_cons]
    exact pyStrip_cons_ne_nil hc

/-- Every window of `t` is an infix of `t`. -/
theorem window_isInfix (t : Str) (start w : Nat) :
    ((t.drop start).take w) <:+: t :=
  ⟨t.take start, (t.drop start).drop w, by
    rw [List.append_assoc, List.take_append_drop, List.take_append_drop]⟩

/-- Unfolding of `generate_snippets` on non-empty input. -/
theorem generate_snippets_eq (text : Str) (maxS w step : Nat) (htext : text ≠ []) :
    generate_snippets text maxS w step =
      match snippetLoop (normalizeWs text) maxS w step
          ((normalizeWs text).length + maxS) [] 0 with
      | none => []
      | some snippets =>
        if snippets ≠ [] ∧ snippets.length < maxS then
          if (normalizeWs text).take 200 ∈ snippets then snippets
          else snippets ++ [(normalizeWs text).take 200]
        else snippets := by
  unfold generate_snippets
  rw [if_neg htext]

/-- Unfolding of `generate_snippets` when the loop exhausts its fuel. -/
theorem generate_snippets_eq_none (text : Str) (maxS w step : Nat)
    (htext : text ≠ [])
    (hrun : snippetLoop (normalizeWs text) maxS w step
      ((normalizeWs text).length + maxS) [] 0 = none) :
    generate_snippets text maxS w step = [] := by
  rw [generate_snippets_eq text maxS w step htext, hrun]

/-- Unfolding of `generate_snippets` when the loop completes. -/
theorem generate_snippets_eq_some (text : Str) (maxS w step : Nat)
    (htext : text ≠ []) {snippets : List Str}
    (hrun : snippetLoop (normalizeWs text) maxS w step
      ((normalizeWs text).length + maxS) [] 0 = some snippets) :
    generate_snippets text maxS w step =
      if snippets ≠ [] ∧ snippets.length < maxS then
        if (normalizeWs text).take 200 ∈ snippets then snippets
        else snippets ++ [(normalizeWs text).take 200]
      else snippets := by
  rw [generate_snippets_eq text maxS w step htext, hrun]

/-- C8: `generate_snippets` returns `[]` on the empty string; on any input
every returned snippet is non-empty after trimming and is a contiguous
substring (infix) of the whitespace-normalized input, and the result has at
most `max_snippets` entries. -/
theorem C8_generate_snippets_props :
    ∀ (text : Str) (maxS w step : Nat),
      generate_snippets [] maxS w step = [] ∧
      (∀ s ∈ generate_snippets text maxS w step,
        pyStrip s ≠ [] ∧ s <:+: normalizeWs text) ∧
      (generate_snippets text maxS w step).length ≤ maxS := by
  intro text maxS w step
  refine ⟨by simp [generate_snippets], ?_⟩
  by_cases htext : text = []
  · subst htext
    rw [generate_snippets]
    simp
  cases hrun : snippetLoop (normalizeWs text) maxS w step
      ((normalizeWs text).length + maxS) [] 0 with
  | none =>
    rw [generate_snippets_eq_none text maxS w step htext hrun]
    simp
  | some snippets =>
    rw [generate_snippets_eq_some text maxS w step htext hrun]
    have hgood : ∀ s ∈ snippets, pyStrip s ≠ [] ∧ s <:+: normalizeWs text := by
      refine snippetLoop_mem (normalizeWs text) maxS w step _ ?_ _ [] 0 snippets
        (by simp) hrun
      intro start hstrip
      exact ⟨hstrip, window_isInfix (normalizeWs text) start w⟩
    have hlen : snippets.length ≤ maxS :=
      snippetLoop_length_le (normalizeWs text) maxS w step _ [] 0 snippets
        (by simp) hrun
    split
    next hcond =>
      have htne : normalizeWs text ≠ [] := by
        intro hnil
        have := snippetLoop_nil_text maxS w step _ 0 snippets (hnil ▸ hrun)
        exact hcond.1 this
      obtain ⟨c, cs, ht⟩ : ∃ c cs, normalizeWs text = c :: cs := by
        cases hx : normalizeWs text with
        | nil => exact absurd hx htne
        | cons c cs => exact ⟨c, cs, rfl⟩
      have hfirst : pyStrip ((normalizeWs text).take 200) ≠ [] ∧
          ((normalizeWs text).take 200) <:+: normalizeWs text := by
        constructor
        · rw [ht]
          exact pyStrip_take_pos cs (by omega) (normalizeWs_head ht)
        · exact ⟨[], (normalizeWs text).drop 200, by
            rw [List.nil_append, List.take_append_drop]⟩
      split
      next hmem =>
        exact ⟨hgood, hlen⟩
      next hmem =>
        constructor
        · intro s hs
          rcases List.mem_append.mp hs with hs | hs
          · exact hgood s hs
          · obtain rfl := List.mem_singleton.mp hs
            exact hfirst
        · rw [List.length_append, List.length_singleton]
          omega
    next hcond =>
      exact ⟨hgood, hlen⟩

/-- Witness for C8 at a concrete input. -/
theorem C8_generate_snippets_props_witness :
    pyStrip ['a'] ≠ [] ∧ ['a'] <:+: normalizeWs ['a'] :=
  (C8_generate_snippets_props ['a'] 6 300 200).2.1 ['a'] (by decide)

/-- `processCandidates` on the empty candidate list. -/
theorem processCandidates_nil (pages : List Page) (matched : List Str)
    (annots : List (Nat × Nat)) :
    processCandidates pages [] matched annots = (matched, annots) := by
  rw [processCandidates]

/-- Step equation: a candidate that strips to the empty string is skipped
(and the cap is not checked, as `continue` skips it). -/
theorem processCandidates_cons_skip {c : Str} (pages : List Page)
    (rest matched : List Str) (annots : List (Nat × Nat)) (hss : pyStrip c = []) :
    processCandidates pages (c :: rest) matched annots =
      processCandidates pages rest matched annots := by
  rw [processCandidates, if_pos hss]

/-- Step equation: a candidate found on some page is recorded and annotated,
then the cap is checked. -/
theorem processCandidates_cons_found {c : Str} (pages : List Page)
    (rest matched : List Str) (annots : List (Nat × Nat)) {hit : Nat × List Nat}
    (hss : pyStrip c ≠ []) (hhit : searchHit pages (pyStrip c) = some hit) :
    processCandidates pages (c :: rest) matched annots =
      if 6 ≤ (matched ++ [pyStrip c]).length then
        (matched ++ [pyStrip c], annots ++ (hit.2.take 6).map (fun r => (hit.1, r)))
      else
        processCandidates pages rest (matched ++ [pyStrip c])
          (annots ++ (hit.2.take 6).map (fun r => (hit.1, r))) := by
  rw [processCandidates, if_neg hss, hhit]

/-- Step equation: a candidate found on no page leaves the state unchanged,
then the cap is checked. -/
theorem processCandidates_cons_miss {c : Str} (pages : List Page)
    (rest matched : List Str) (annots : List (Nat × Nat))
    (hss : pyStrip c ≠ []) (hhit : searchHit pages (pyStrip c) = none) :
    processCandidates pages (c :: rest) matched annots =
      if 6 ≤ matched.length then (matched, annots)
      else processCandidates pages rest matched annots := by
  rw [processCandidates, if_neg hss, hhit]

/-- The candidate loop only appends: its matched result extends the
accumulator by a sublist of the stripped candidates (so discovery order is
candidate order). -/
theorem processCandidates_delta (pages : List Page) :
    ∀ (cs matched : List Str) (annots : List (Nat × Nat)),
      ∃ delta, (processCandidates pages cs matched annots).1 = matched ++ delta ∧
        List.Sublist delta (cs.map pyStrip) := by
  intro cs
  induction cs with
  | nil =>
    intro matched annots
    exact ⟨[], by rw [processCandidates_nil]; simp, by simp⟩
  | cons c rest ih =>
    intro matched annots
    by_cases hss : pyStrip c = []
    · obtain ⟨delta, h1, h2⟩ := ih matched annots
      refine ⟨delta, ?_, ?_⟩
      · rw [processCandidates_cons_skip pages rest matched annots hss]
        exact h1
      · rw [List.map_cons]
        exact h2.cons (pyStrip c)
    · cases hhit : searchHit pages (pyStrip c) with
      | some hit =>
        rw [processCandidates_cons_found pages rest matched annots hss hhit]
        split
        · exact ⟨[pyStrip c], rfl, by
            rw [List.map_cons]
            exact (List.nil_sublist _).cons₂ (pyStrip c)⟩
        · obtain ⟨delta, h1, h2⟩ :=
            ih (matched ++ [pyStrip c])
              (annots ++ (hit.2.take 6).map (fun r => (hit.1, r)))
          refine ⟨pyStrip c :: delta, ?_, ?_⟩
          · rw [h1, List.append_assoc]
            rfl
          · rw [List.map_cons]
            exact h2.cons₂ (pyStrip c)
      | none =>
        rw [processCandidates_cons_miss pages rest matched annots hss hhit]
        split
        · exact ⟨[], by simp, by simp⟩
        · obtain ⟨delta, h1, h2⟩ := ih matched annots
          exact ⟨delta, h1, by rw [List.map_cons]; exact h2.cons (pyStrip c)⟩

/-- The matched list never exceeds 6 entries when starting from at most 5. -/
theorem processCandidates_length_le (pages : List Page) :
    ∀ (cs matched : List Str) (annots : List (Nat × Nat)),
      matched.length ≤ 5 →
      (processCandidates pages cs matched annots).1.length ≤ 6 := by
  intro cs
  induction cs with
  | nil =>
    intro matched annots h5
    rw [processCandidates_nil]
    simpa using Nat.le_trans h5 (by omega)
  | cons c rest ih =>
    intro matched annots h5
    by_cases hss : pyStrip c = []
    · rw [processCandidates_cons_skip pages rest matched annots hss]
      exact ih matched annots h5
    · cases hhit : searchHit pages (pyStrip c) with
      | some hit =>
        rw [processCandidates_cons_found pages rest matched annots hss hhit]
        split
        · rw [List.length_append, List.length_singleton]
          omega
        next hcap =>
          refine ih _ _ ?_
          rw [List.length_append, List.length_singleton] at hcap ⊢
          omega
      | none =>
        rw [processCandidates_cons_miss pages rest matched annots hss hhit]
        split
        · omega
        · exact ih matched annots h5

/-- Once the matched list reaches 6 entries the loop has stopped: appending
further candidates does not change the result. -/
theorem processCandidates_stop (pages : List Page) :
    ∀ (pre post matched : List Str) (annots : List (Nat × Nat)),
      matched.length ≤ 5 →
      6 ≤ (processCandidates pages pre matched annots).1.length →
      processCandidates pages (pre ++ post) matched annots =
        processCandidates pages pre matched annots := by
  intro pre
  induction pre with
  | nil =>
    intro post matched annots h5 h6
    rw [processCandidates_nil] at h6
    simp at h6
    omega
  | cons c rest ih =>
    intro post matched annots h5 h6
    rw [List.cons_append]
    by_cases hss : pyStrip c = []
    · rw [processCandidates_cons_skip pages (rest ++ post) matched annots hss,
        processCandidates_cons_skip pages rest matched annots hss]
      rw [processCandidates_cons_skip pages rest matched annots hss] at h6
      exact ih post matched annots h5 h6
    · cases hhit : searchHit pages (pyStrip c) with
      | some hit =>
        rw [processCandidates_cons_found pages (rest ++ post) matched annots hss hhit,
          processCandidates_cons_found pages rest matched annots hss hhit]
        rw [processCandidates_cons_found pages rest matched annots hss hhit] at h6
        split
        · rfl
        next hcap =>
          rw [if_neg hcap] at h6
          refine ih post _ _ ?_ h6
          rw [List.length_append, List.length_singleton] at hcap ⊢
          omega
      | none =>
        rw [processCandidates_cons_miss pages (rest ++ post) matched annots hss hhit,
          processCandidates_cons_miss pages rest matched annots hss hhit]
        rw [processCandidates_cons_miss pages rest matched annots hss hhit] at h6
        split
        · rfl
        next hcap =>
          rw [if_neg hcap] at h6
          exact ih post matched annots h5 h6

/-- The page loop hits the first page whose search locates a region,
independently of the pages after it. -/
theorem searchHitAux_app (ss : Str) :
    ∀ (pre : List Page) (p : Page) (post : List Page) (i : Nat),
      (∀ q ∈ pre, q ss = []) → p ss ≠ [] →
      searchHitAux ss (pre ++ p :: post) i = some (i + pre.length, p ss) := by
  intro pre
  induction pre with
  | nil =>
    intro p post i hpre hp
    rw [List.nil_append, searchHitAux, if_pos hp, List.length_nil]
    rfl
  | cons q pre' ih =>
    intro p post i hpre hp
    have hq : q ss = [] := hpre q (List.mem_cons_self q pre')
    rw [List.cons_append, searchHitAux, if_neg (fun h => h hq)]
    rw [ih p post (i + 1) (fun r hr => hpre r (List.mem_cons_of_mem q hr)) hp]
    have harith : i + 1 + pre'.length = i + (q :: pre').length := by
      rw [List.length_cons]
      omega
    rw [harith]

/-- Unfolding of `highlight_pdf` when the text is non-empty and the document
opens. -/
theorem highlight_pdf_eq_open (env : PdfEnv) (text : Str) (htext : text ≠ [])
    {doc : List Page} (hdoc : env.openDoc = some doc) :
    highlight_pdf env text =
      if (processCandidates doc (generate_snippets text 8 400 240) [] []).1 ≠ [] then
        if env.primarySaveOk then
          ⟨(processCandidates doc (generate_snippets text 8 400 240) [] []).1, true,
            (processCandidates doc (generate_snippets text 8 400 240) [] []).2, 1,
            some SaveMode.primary⟩
        else if env.retrySaveOk then
          ⟨(processCandidates doc (generate_snippets text 8 400 240) [] []).1, true,
            (processCandidates doc (generate_snippets text 8 400 240) [] []).2, 2,
            some SaveMode.compact⟩
        else
          ⟨(processCandidates doc (generate_snippets text 8 400 240) [] []).1, true,
            (processCandidates doc (generate_snippets text 8 400 240) [] []).2, 2,
            none⟩
      else
        ⟨(processCandidates doc (generate_snippets text 8 400 240) [] []).1, true,
          (processCandidates doc (generate_snippets text 8 400 240) [] []).2, 0,
          none⟩ := by
  unfold highlight_pdf
  rw [if_neg htext, hdoc]

/-- Unfolding of `highlight_pdf` when the text is non-empty and the open
raises. -/
theorem highlight_pdf_eq_openFail (env : PdfEnv) (text : Str) (htext : text ≠ [])
    (hdoc : env.openDoc = none) :
    highlight_pdf env text = ⟨[], true, [], 0, none⟩ := by
  unfold highlight_pdf
  rw [if_neg htext, hdoc]

/-- Unfolding of `highlight_pdf` on empty text. -/
theorem highlight_pdf_eq_emptyText (env : PdfEnv) :
    highlight_pdf env [] = ⟨[], false, [], 0, none⟩ := by
  unfold highlight_pdf
  rw [if_pos rfl]

/-- In every branch with an open document the returned list is the matched
component of the candidate loop (the save outcome never changes it). -/
theorem highlight_pdf_matched_eq (env : PdfEnv) (text : Str) (htext : text ≠ [])
    {doc : List Page} (hdoc : env.openDoc = some doc) :
    (highlight_pdf env text).matched =
      (processCandidates doc (generate_snippets text 8 400 240) [] []).1 := by
  rw [highlight_pdf_eq_open env text htext hdoc]
  split
  · split
    · rfl
    · split
      · rfl
      · rfl
  · rfl

/-- C6: `highlight_pdf` fails soft — on empty search text it returns the
empty list without attempting to open the document, and when the document
cannot be opened it returns the empty list (no annotation, no save, no
error). -/
theorem C6_fails_soft :
    ∀ (env : PdfEnv) (text : Str),
      (text = [] → highlight_pdf env text = ⟨[], false, [], 0, none⟩) ∧
      (env.openDoc = none → text ≠ [] →
        highlight_pdf env text = ⟨[], true, [], 0, none⟩) := by
  intro env text
  constructor
  · intro h
    subst h
    exact highlight_pdf_eq_emptyText env
  · intro hdoc htext
    exact highlight_pdf_eq_openFail env text htext hdoc

/-- Witness for C6 at concrete inputs. -/
theorem C6_fails_soft_witness :
    highlight_pdf ⟨none, true, true⟩ [] = ⟨[], false, [], 0, none⟩ ∧
    highlight_pdf ⟨none, true, true⟩ ['a'] = ⟨[], true, [], 0, none⟩ :=
  ⟨(C6_fails_soft ⟨none, true, true⟩ []).1 rfl,
   (C6_fails_soft ⟨none, true, true⟩ ['a']).2 rfl (by decide)⟩

/-- A single `highlight_pdf` call returns at most 6 matched snippets. -/
theorem highlight_pdf_matched_length_le (env : PdfEnv) (text : Str) :
    (highlight_pdf env text).matched.length ≤ 6 := by
  by_cases htext : text = []
  · subst htext
    rw [highlight_pdf_eq_emptyText]
    simp
  cases hdoc : env.openDoc with
  | none =>
    rw [highlight_pdf_eq_openFail env text htext hdoc]
    simp
  | some doc =>
    rw [highlight_pdf_matched_eq env text htext hdoc]
    exact processCandidates_length_le doc (generate_snippets text 8 400 240) [] []
      (by simp)

/-- C4: a single `highlight_pdf` call returns at most 6 matched snippets,
and once 6 candidates have been matched in total the loop processes no
further candidates (the remaining candidate list is irrelevant). -/
theorem C4_global_cap :
    ∀ (env : PdfEnv) (text : Str),
      (highlight_pdf env text).matched.length ≤ 6 ∧
      ∀ (pages : List Page) (pre post : List Str),
        6 ≤ (processCandidates pages pre [] []).1.length →
        processCandidates pages (pre ++ post) [] [] =
          processCandidates pages pre [] [] := by
  intro env text
  constructor
  · exact highlight_pdf_matched_length_le env text
  · intro pages pre post h6
    exact processCandidates_stop pages pre post [] [] (by simp) h6

/-- Witness for C4: after six matches a further candidate is ignored. -/
theorem C4_global_cap_witness :
    processCandidates [pageAll] (List.replicate 6 ['a'] ++ [['b']]) [] [] =
      processCandidates [pageAll] (List.replicate 6 ['a']) [] [] :=
  (C4_global_cap pdfEnvAll ['a']).2 [pageAll] (List.replicate 6 ['a']) [['b']]
    (by decide)

/-- C5: for one candidate the page loop stops at the first page whose
search succeeds — the hit reported is that page (pages after it are
irrelevant), at most 6 regions of that page are annotated, and the
candidate is recorded as matched exactly once. -/
theorem C5_first_hit_page :
    ∀ (pre post : List Page) (p : Page) (c : Str),
      pyStrip c ≠ [] → (∀ q ∈ pre, q (pyStrip c) = []) → p (pyStrip c) ≠ [] →
      searchHit (pre ++ p :: post) (pyStrip c) = some (pre.length, p (pyStrip c)) ∧
      processCandidates (pre ++ p :: post) [c] [] [] =
        ([pyStrip c], ((p (pyStrip c)).take 6).map (fun r => (pre.length, r))) ∧
      (((p (pyStrip c)).take 6).map (fun r => (pre.length, r))).length ≤ 6 := by
  intro pre post p c hss hpre hp
  have hsearch : searchHit (pre ++ p :: post) (pyStrip c) =
      some (pre.length, p (pyStrip c)) := by
    unfold searchHit
    rw [searchHitAux_app (pyStrip c) pre p post 0 hpre hp, Nat.zero_add]
  refine ⟨hsearch, ?_, ?_⟩
  · rw [processCandidates_cons_found (pre ++ p :: post) [] [] [] hss hsearch]
    rw [if_neg (by simp)]
    rw [processCandidates_nil]
    simp
  · rw [List.length_map, List.length_take]
    exact min_le_left 6 _

/-- Witness for C5 at a concrete page list and candidate. -/
theorem C5_first_hit_page_witness :
    searchHit [pageAll] (pyStrip ['a']) = some (0, pageAll (pyStrip ['a'])) ∧
    processCandidates [pageAll] [['a']] [] [] =
      ([pyStrip ['a']], ((pageAll (pyStrip ['a'])).take 6).map (fun r => (0, r))) ∧
    (((pageAll (pyStrip ['a'])).take 6).map (fun r => (0, r))).length ≤ 6 :=
  C5_first_hit_page [] [] pageAll ['a'] (by decide) (by simp) (by decide)

/-- C7: the output file is written only when at least one candidate matched;
when the primary save fails the code retries exactly once with the
compacting strategy; a second failure is swallowed (`savedAt = none`), and
the matched list is returned unchanged whatever the save flags are. -/
theorem C7_save_retry_policy :
    ∀ (env : PdfEnv) (text : Str),
      ((highlight_pdf env text).savedAt ≠ none →
        (highlight_pdf env text).matched ≠ []) ∧
      ((highlight_pdf env text).matched = [] →
        (highlight_pdf env text).saveAttempts = 0 ∧
        (highlight_pdf env text).savedAt = none) ∧
      ((highlight_pdf env text).matched ≠ [] → env.primarySaveOk = false →
        (highlight_pdf env text).saveAttempts = 2 ∧
        (highlight_pdf env text).savedAt =
          (if env.retrySaveOk then some SaveMode.compact else none)) ∧
      (∀ b1 b2 : Bool,
        (highlight_pdf ⟨env.openDoc, b1, b2⟩ text).matched =
          (highlight_pdf env text).matched) := by
  intro env text
  by_cases htext : text = []
  · subst htext
    refine ⟨?_, ?_, ?_, ?_⟩ <;> simp [highlight_pdf_eq_emptyText]
  cases hdoc : env.openDoc with
  | none =>
    have h1 := highlight_pdf_eq_openFail env text htext hdoc
    refine ⟨?_, ?_, ?_, ?_⟩
    · rw [h1]
      simp
    · rw [h1]
      simp
    · rw [h1]
      simp
    · intro b1 b2
      rw [h1, highlight_pdf_eq_openFail ⟨none, b1, b2⟩ text htext rfl]
  | some doc =>
    have hm4 : ∀ b1 b2 : Bool,
        (highlight_pdf ⟨some doc, b1, b2⟩ text).matched =
          (highlight_pdf env text).matched := by
      intro b1 b2
      rw [highlight_pdf_matched_eq ⟨some doc, b1, b2⟩ text htext rfl,
        highlight_pdf_matched_eq env text htext hdoc]
    have hmatch := highlight_pdf_matched_eq env text htext hdoc
    have h1 := highlight_pdf_eq_open env text htext hdoc
    by_cases hm : (processCandidates doc (generate_snippets text 8 400 240) [] []).1 = []
    · have hout : highlight_pdf env text =
          ⟨(processCandidates doc (generate_snippets text 8 400 240) [] []).1, true,
            (processCandidates doc (generate_snippets text 8 400 240) [] []).2, 0,
            none⟩ := by
        rw [h1, if_neg (fun hne => hne hm)]
      refine ⟨?_, ?_, ?_, hm4⟩
      · rw [hout]
        intro h
        exact absurd rfl h
      · intro _
        rw [hout]
        exact ⟨rfl, rfl⟩
      · intro hne _
        rw [hmatch] at hne
        exact absurd hm hne
    · cases hp : env.primarySaveOk with
      | true =>
        have hout : highlight_pdf env text =
            ⟨(processCandidates doc (generate_snippets text 8 400 240) [] []).1, true,
              (processCandidates doc (generate_snippets text 8 400 240) [] []).2, 1,
              some SaveMode.primary⟩ := by
          rw [h1, if_pos hm, if_pos hp]
        refine ⟨?_, ?_, ?_, hm4⟩
        · intro _
          rw [hmatch]
          exact hm
        · intro hmm
          rw [hmatch] at hmm
          exact absurd hmm hm
        · intro _ hpf
          simp at hpf
      | false =>
        cases hr : env.retrySaveOk with
        | true =>
          have hout : highlight_pdf env text =
              ⟨(processCandidates doc (generate_snippets text 8 400 240) [] []).1, true,
                (processCandidates doc (generate_snippets text 8 400 240) [] []).2, 2,
                some SaveMode.compact⟩ := by
            rw [h1, if_pos hm, if_neg (by simp [hp]), if_pos hr]
          refine ⟨?_, ?_, ?_, hm4⟩
          · intro _
            rw [hmatch]
            exact hm
          · intro hmm
            rw [hmatch] at hmm
            exact absurd hmm hm
          · intro _ _
            rw [hout]
            exact ⟨rfl, rfl⟩
        | false =>
          have hout : highlight_pdf env text =
              ⟨(processCandidates doc (generate_snippets text 8 400 240) [] []).1, true,
                (processCandidates doc (generate_snippets text 8 400 240) [] []).2, 2,
                none⟩ := by
            rw [h1, if_pos hm, if_neg (by simp [hp]), if_neg (by simp [hr])]
          refine ⟨?_, ?_, ?_, hm4⟩
          · rw [hout]
            simp
          · intro hmm
            rw [hmatch] at hmm
            exact absurd hmm hm
          · intro _ _
            rw [hout]
            exact ⟨rfl, rfl⟩

/-- Witness for C7: one matching document whose primary save fails. -/
theorem C7_save_retry_policy_witness :
    (highlight_pdf ⟨some [pageAll], false, true⟩ ['a']).saveAttempts = 2 ∧
    (highlight_pdf ⟨some [pageAll], false, true⟩ ['a']).savedAt =
      (if (true : Bool) then some SaveMode.compact else none) :=
  (C7_save_retry_policy ⟨some [pageAll], false, true⟩ ['a']).2.2.1 (by decide) rfl

/-- C2 (amended): the list returned by `highlight_pdf` is, in order, a
sublist of the stripped candidate list — so the snippets appear in
discovery order, and the result is duplicate-free whenever the stripped
candidates are; duplicate candidate windows, however, are passed through
without deduplication. -/
theorem C2_matched_sublist_of_candidates :
    ∀ (env : PdfEnv) (text : Str),
      List.Sublist (highlight_pdf env text).matched
        ((generate_snippets text 8 400 240).map pyStrip) ∧
      (((generate_snippets text 8 400 240).map pyStrip).Nodup →
        (highlight_pdf env text).matched.Nodup) := by
  intro env text
  have hsub : List.Sublist (highlight_pdf env text).matched
      ((generate_snippets text 8 400 240).map pyStrip) := by
    by_cases htext : text = []
    · subst htext
      rw [highlight_pdf_eq_emptyText]
      exact List.nil_sublist _
    cases hdoc : env.openDoc with
    | none =>
      rw [highlight_pdf_eq_openFail env text htext hdoc]
      exact List.nil_sublist _
    | some doc =>
      rw [highlight_pdf_matched_eq env text htext hdoc]
      obtain ⟨delta, h1, h2⟩ :=
        processCandidates_delta doc (generate_snippets text 8 400 240) [] []
      rw [h1]
      simpa using h2
  exact ⟨hsub, fun hnd => hnd.sublist hsub⟩

/-- Witness for C2's amended theorem at a concrete input. -/
theorem C2_matched_sublist_of_candidates_witness :
    List.Sublist (highlight_pdf pdfEnvOnlyA ['A']).matched
      ((generate_snippets ['A'] 8 400 240).map pyStrip) ∧
    (highlight_pdf pdfEnvOnlyA ['A']).matched.Nodup :=
  ⟨(C2_matched_sublist_of_candidates pdfEnvOnlyA ['A']).1,
   (C2_matched_sublist_of_candidates pdfEnvOnlyA ['A']).2 (by decide)⟩

set_option maxRecDepth 8000 in
/-- C2 counterexample: on a 640-character run of `x` the candidate windows
at offsets 0 and 240 are the identical 400-character string, both match,
and `highlight_pdf` returns them both — the returned list has duplicates. -/
theorem C2_counterexample :
    (highlight_pdf pdfEnvAll (List.replicate 640 'x')).matched.get? 0 =
      some (List.replicate 400 'x') ∧
    (highlight_pdf pdfEnvAll (List.replicate 640 'x')).matched.get? 1 =
      some (List.replicate 400 'x') ∧
    ¬ (highlight_pdf pdfEnvAll (List.replicate 640 'x')).matched.Nodup := by
  decide

/-- The fragment loop performs one invocation per (capped) fragment. -/
theorem fileInvocationsAux_length (pdfE : PdfEnv) (cand : Str) :
    ∀ (cs : List Str) (i : Nat),
      (fileInvocationsAux pdfE cand i cs).length = cs.length := by
  intro cs
  induction cs with
  | nil =>
    intro i
    rw [fileInvocationsAux]
    rfl
  | cons c rest ih =>
    intro i
    rw [fileInvocationsAux, List.length_cons, List.length_cons, ih (i + 1)]

/-- At most 8 fragment contents are passed to the matcher per file. -/
theorem fileInvocations_length_le (env : ServerEnv) (cand : Str)
    (contents : List Str) :
    (fileInvocations env cand contents).length ≤ 8 := by
  unfold fileInvocations
  rw [fileInvocationsAux_length, List.length_take]
  exact min_le_left 8 _

/-- Every invocation of the fragment loop returns at most 6 snippets. -/
theorem fileInvocationsAux_matched_le (pdfE : PdfEnv) (cand : Str) :
    ∀ (cs : List Str) (i : Nat), ∀ inv ∈ fileInvocationsAux pdfE cand i cs,
      inv.2.matched.length ≤ 6 := by
  intro cs
  induction cs with
  | nil =>
    intro i inv h
    rw [fileInvocationsAux] at h
    simp at h
  | cons c rest ih =>
    intro i inv h
    rw [fileInvocationsAux] at h
    rcases List.mem_cons.mp h with rfl | h
    · exact highlight_pdf_matched_length_le pdfE c
    · exact ih (i + 1) inv h

/-- Collecting the matched lists of `n` invocations, each of length at most
6, grows the accumulator by at most `6 * n`. -/
theorem foldl_collect_length_le :
    ∀ (invs : List (Str × HighlightOutcome)) (acc : List Str),
      (∀ inv ∈ invs, inv.2.matched.length ≤ 6) →
      (invs.foldl
        (fun acc inv => if inv.2.matched ≠ [] then acc ++ inv.2.matched else acc)
        acc).length ≤ acc.length + 6 * invs.length := by
  intro invs
  induction invs with
  | nil =>
    intro acc _
    simp
  | cons inv rest ih =>
    intro acc hle
    rw [List.foldl_cons]
    have h1 := ih (if inv.2.matched ≠ [] then acc ++ inv.2.matched else acc)
      (fun i hi => hle i (List.mem_cons_of_mem inv hi))
    have h2 : (if inv.2.matched ≠ [] then acc ++ inv.2.matched else acc).length ≤
        acc.length + 6 := by
      split
      · rw [List.length_append]
        have := hle inv (List.mem_cons_self inv rest)
        omega
      · omega
    rw [List.length_cons]
    omega

/-- The matched snippets collected for one file number at most 48 = 8 × 6. -/
theorem allMatched_length_le (env : ServerEnv) (cand : Str)
    (contents : List Str) :
    (allMatched env cand contents).length ≤ 48 := by
  unfold allMatched
  have h := foldl_collect_length_le (fileInvocations env cand contents) []
    (fun inv hi =>
      fileInvocationsAux_matched_le (env.pdf cand) cand (contents.take 8) 0 inv hi)
  have hlen := fileInvocations_length_le env cand contents
  simp only [List.length_nil] at h
  omega

/-- The dedup loop never lengthens its input. -/
theorem dedupeAcc_length_le :
    ∀ (l acc : List Str),
      (l.foldl (fun acc s => if s ∈ acc then acc else acc ++ [s]) acc).length ≤
        acc.length + l.length := by
  intro l
  induction l with
  | nil =>
    intro acc
    simp
  | cons s rest ih =>
    intro acc
    rw [List.foldl_cons]
    have h1 := ih (if s ∈ acc then acc else acc ++ [s])
    have h2 : (if s ∈ acc then acc else acc ++ [s]).length ≤ acc.length + 1 := by
      split
      · omega
      · rw [List.length_append]
        simp
    rw [List.length_cons]
    omega

/-- `dedupeKeepOrder` never lengthens its input. -/
theorem dedupeKeepOrder_length_le (l : List Str) :
    (dedupeKeepOrder l).length ≤ l.length := by
  unfold dedupeKeepOrder
  have h := dedupeAcc_length_le l []
  simpa using h

/-- The dedup loop preserves freedom from duplicates. -/
theorem dedupeAcc_nodup :
    ∀ (l acc : List Str), acc.Nodup →
      (l.foldl (fun acc s => if s ∈ acc then acc else acc ++ [s]) acc).Nodup := by
  intro l
  induction l with
  | nil =>
    intro acc h
    simpa using h
  | cons s rest ih =>
    intro acc h
    rw [List.foldl_cons]
    refine ih _ ?_
    split
    · exact h
    next hmem =>
      rw [List.nodup_append]
      refine ⟨h, List.nodup_singleton s, ?_⟩
      intro a ha hb
      obtain rfl := List.mem_singleton.mp hb
      exact hmem ha

/-- The chunk list of an artifact has no duplicates. -/
theorem dedupeKeepOrder_nodup (l : List Str) : (dedupeKeepOrder l).Nodup :=
  dedupeAcc_nodup l [] List.nodup_nil

/-- An artifact is withheld exactly when no snippet matched. -/
theorem fileArtifact_eq_none_iff (env : ServerEnv) (cand : Str)
    (contents : List Str) :
    fileArtifact env cand contents = none ↔
      allMatched env cand contents = [] := by
  unfold fileArtifact
  split
  next h => simp [h]
  next h =>
    simp only [ne_eq, not_not] at h
    simp [h]

/-- Shape of an emitted artifact. -/
theorem fileArtifact_some_eq {env : ServerEnv} {cand : Str} {contents : List Str}
    {a : Artifact} (h : fileArtifact env cand contents = some a) :
    allMatched env cand contents ≠ [] ∧
    a = ⟨basename cand, dedupeKeepOrder (allMatched env cand contents),
      env.abspath (outPath cand ((contents.take 8).length - 1)),
      "/download?path=".toList ++
        env.quote_plus (env.abspath (outPath cand ((contents.take 8).length - 1)))⟩ := by
  unfold fileArtifact at h
  split at h
  next hne => exact ⟨hne, (Option.some.inj h).symm⟩
  next => exact absurd h (by simp)

/-- For the indices the fragment loop can produce, the output suffix has a
fixed length (the fragment index prints as one digit). -/
theorem outSuffix_length_lt8 : ∀ i : Nat, i < 8 → (outSuffix i).length = 18 := by
  decide

/-- For the indices the fragment loop can produce, the output suffix
determines the index. -/
theorem outSuffix_inj_lt8 :
    ∀ i : Nat, i < 8 → ∀ j : Nat, j < 8 → outSuffix i = outSuffix j → i = j := by
  decide

/-- Output paths are distinct per (source file, fragment index) pair. -/
theorem outPath_inj {c1 c2 : Str} {i j : Nat} (hi : i < 8) (hj : j < 8)
    (h : outPath c1 i = outPath c2 j) : c1 = c2 ∧ i = j := by
  unfold outPath at h
  have hlen : (outSuffix i).length = (outSuffix j).length := by
    rw [outSuffix_length_lt8 i hi, outSuffix_length_lt8 j hj]
  obtain ⟨hc, hs⟩ := List.append_inj' h hlen
  exact ⟨hc, outSuffix_inj_lt8 i hi j hj hs⟩

/-- The `j`-th invocation of the fragment loop (starting at index `i`) is
the highlight of the `j`-th capped fragment at output index `i + j`. -/
theorem fileInvocationsAux_get? (pdfE : PdfEnv) (cand : Str) :
    ∀ (cs : List Str) (i j : Nat),
      (fileInvocationsAux pdfE cand i cs).get? j =
        (cs.get? j).map (fun c => (outPath cand (i + j), highlight_pdf pdfE c)) := by
  intro cs
  induction cs with
  | nil =>
    intro i j
    rw [fileInvocationsAux]
    simp
  | cons c rest ih =>
    intro i j
    cases j with
    | zero =>
      rw [fileInvocationsAux]
      simp
    | succ j' =>
      rw [fileInvocationsAux]
      have harith : i + 1 + j' = i + (j' + 1) := by omega
      simp only [List.get?]
      rw [ih (i + 1) j', harith]

/-- The download target `outPath cand k` appears among the persisted paths
iff the `k`-th invocation itself persisted its output (path distinctness
makes the index unambiguous). -/
theorem persistedPaths_mem_iff (env : ServerEnv) (cand : Str)
    (contents : List Str) {k : Nat} (hk : k < 8) :
    outPath cand k ∈ persistedPaths env cand contents ↔
      ∃ c, (contents.take 8).get? k = some c ∧
        (highlight_pdf (env.pdf cand) c).savedAt ≠ none := by
  unfold persistedPaths fileInvocations
  constructor
  · intro hmem
    obtain ⟨inv, hinvf, hfst⟩ := List.mem_map.mp hmem
    obtain ⟨hinv, hP⟩ := List.mem_filter.mp hinvf
    obtain ⟨j, hj⟩ := List.mem_iff_get?.mp hinv
    rw [fileInvocationsAux_get? (env.pdf cand) cand (contents.take 8) 0 j] at hj
    cases hc : (contents.take 8).get? j with
    | none =>
      rw [hc] at hj
      simp at hj
    | some c =>
      rw [hc] at hj
      simp only [Option.map_some'] at hj
      obtain rfl := Option.some.inj hj
      have hj8 : j < 8 := by
        obtain ⟨hlt, -⟩ := List.get?_eq_some.mp hc
        have hle : (contents.take 8).length ≤ 8 := by
          rw [List.length_take]
          exact min_le_left 8 _
        omega
      have hpath : outPath cand (0 + j) = outPath cand k := hfst
      obtain ⟨-, rfl⟩ := outPath_inj (by omega : 0 + j < 8) hk hpath
      refine ⟨c, ?_, of_decide_eq_true hP⟩
      rw [← hc]
      congr 1
      omega
  · rintro ⟨c, hc, hsaved⟩
    have hj := fileInvocationsAux_get? (env.pdf cand) cand (contents.take 8) 0 k
    rw [hc] at hj
    simp only [Option.map_some'] at hj
    have hmem : (outPath cand (0 + k), highlight_pdf (env.pdf cand) c) ∈
        fileInvocationsAux (env.pdf cand) cand 0 (contents.take 8) :=
      List.get?_mem hj
    refine List.mem_map.mpr ⟨(outPath cand (0 + k), highlight_pdf (env.pdf cand) c),
      List.mem_filter.mpr ⟨hmem, decide_eq_true hsaved⟩, ?_⟩
    show outPath cand (0 + k) = outPath cand k
    congr 1
    omega

/-- C9: per resolved file at most 8 fragment contents are passed to the
matcher; an artifact is emitted iff at least one snippet matched; its chunk
list is the collected matched snippets deduplicated preserving first-seen
order (hence duplicate-free), and dedup behaves as on the spec's example. -/
theorem C9_aggregator_per_file :
    ∀ (env : ServerEnv) (candidate : Str) (contents : List Str),
      (fileInvocations env candidate contents).length ≤ 8 ∧
      (fileArtifact env candidate contents = none ↔
        allMatched env candidate contents = []) ∧
      (∀ a, fileArtifact env candidate contents = some a →
        a.chunks = dedupeKeepOrder (allMatched env candidate contents) ∧
        a.chunks.Nodup) ∧
      dedupeKeepOrder [['a'], ['b'], ['a'], ['c']] = [['a'], ['b'], ['c']] := by
  intro env candidate contents
  refine ⟨fileInvocations_length_le env candidate contents,
    fileArtifact_eq_none_iff env candidate contents, ?_, by decide⟩
  intro a h
  obtain ⟨hne, rfl⟩ := fileArtifact_some_eq h
  exact ⟨rfl, dedupeKeepOrder_nodup _⟩

/-- Witness for C9 at a concrete input. -/
theorem C9_aggregator_per_file_witness :
    artifactA.chunks = dedupeKeepOrder (allMatched serverEnvAll srcRpdf [['A']]) ∧
    artifactA.chunks.Nodup :=
  (C9_aggregator_per_file serverEnvAll srcRpdf [['A']]).2.2.1 artifactA (by decide)

/-- C1 counterexample: seven fragments of one file, each matching a distinct
snippet, give the file's artifact a chunk list of 7 distinct entries —
more than the claimed cap of 6. -/
theorem C1_counterexample :
    (serverHighlights serverEnvAll fragsSeven).map (fun a => a.chunks.length) =
      [7] := by
  decide

/-- C1 (amended): the number of distinct matched snippets recorded in a
file's artifact chunk list is bounded by 48 = 8 fragment invocations × 6
snippets per invocation (the per-invocation cap is 6, but the per-file
union is not re-capped). -/
theorem C1_chunks_le_48 :
    ∀ (env : ServerEnv) (candidate : Str) (contents : List Str) (a : Artifact),
      fileArtifact env candidate contents = some a → a.chunks.length ≤ 48 := by
  intro env candidate contents a h
  obtain ⟨hne, rfl⟩ := fileArtifact_some_eq h
  have h1 := dedupeKeepOrder_length_le (allMatched env candidate contents)
  have h2 := allMatched_length_le env candidate contents
  exact le_trans h1 h2

/-- Witness for C1's amended theorem. -/
theorem C1_chunks_le_48_witness : artifactA.chunks.length ≤ 48 :=
  C1_chunks_le_48 serverEnvAll srcRpdf [['A']] artifactA (by decide)

/-- C3 counterexample: with two fragments of one file where only the first
matches, the emitted artifact's download path is the second invocation's
output path, at which nothing was persisted (only the first invocation's
output path was). -/
theorem C3_counterexample :
    (serverHighlights serverEnvOnlyA fragsAZ).map (fun a => a.download_path) =
      [outPath srcRpdf 1] ∧
    persistedPaths serverEnvOnlyA srcRpdf [['A'], ['Z']] = [outPath srcRpdf 0] ∧
    outPath srcRpdf 1 ∉ persistedPaths serverEnvOnlyA srcRpdf [['A'], ['Z']] := by
  decide

/-- C3 (amended): output paths are distinct per (resolved file, fragment
index) pair, and the emitted artifact's download reference is derived from
the output path of the *last* fragment invocation — a path that was
persisted iff that last invocation itself saved (so it may refer to an
absent file when the last fragment matched nothing). -/
theorem C3_download_path_last :
    (∀ (c1 c2 : Str) (i j : Nat), i < 8 → j < 8 →
      outPath c1 i = outPath c2 j → c1 = c2 ∧ i = j) ∧
    (∀ (env : ServerEnv) (candidate : Str) (contents : List Str) (a : Artifact),
      fileArtifact env candidate contents = some a →
      a.download_path =
        env.abspath (outPath candidate ((contents.take 8).length - 1)) ∧
      (outPath candidate ((contents.take 8).length - 1) ∈
          persistedPaths env candidate contents ↔
        ∃ c, (contents.take 8).get? ((contents.take 8).length - 1) = some c ∧
          (highlight_pdf (env.pdf candidate) c).savedAt ≠ none)) := by
  constructor
  · intro c1 c2 i j hi hj h
    exact outPath_inj hi hj h
  · intro env candidate contents a h
    obtain ⟨hne, rfl⟩ := fileArtifact_some_eq h
    refine ⟨rfl, ?_⟩
    have hk : (contents.take 8).length - 1 < 8 := by
      have hle : (contents.take 8).length ≤ 8 := by
        rw [List.length_take]
        exact min_le_left 8 _
      omega
    exact persistedPaths_mem_iff env candidate contents hk

/-- Witness for C3's amended theorem at a concrete input. -/
theorem C3_download_path_last_witness :
    artifactAZ.download_path =
      serverEnvOnlyA.abspath
        (outPath srcRpdf ((([['A'], ['Z']] : List Str).take 8).length - 1)) ∧
    (outPath srcRpdf ((([['A'], ['Z']] : List Str).take 8).length - 1) ∈
        persistedPaths serverEnvOnlyA srcRpdf [['A'], ['Z']] ↔
      ∃ c, (([['A'], ['Z']] : List Str).take 8).get?
          ((([['A'], ['Z']] : List Str).take 8).length - 1) = some c ∧
        (highlight_pdf (serverEnvOnlyA.pdf srcRpdf) c).savedAt ≠ none) :=
  C3_download_path_last.2 serverEnvOnlyA srcRpdf [['A'], ['Z']] artifactAZ
    (by decide)

end ChatWithDocs
